import Mathlib

/-!
Verification of the go-spatial-hash engine (src/spatial_hash.go) against its
natural-language specification.

The embedding models the generic coordinate type `N` by the exact rationals
(the repository instantiates `N` with `float64` in its tests and the spec
treats coordinates as real numbers), Go `int` keys by `Int` with explicit
64-bit two's-complement wrapping where the source shifts and xors, buckets by
lists of node ids with set semantics (the source stores nodes in an
identity-keyed concurrent map), and the cell table by an association list
from keys to buckets.  Nodes are Go interface values holding a stable id, a
live position and a cached previous position; operations that mutate the node
(`SetOldPos`) are modelled by returning the updated node next to the updated
hash.  Queries read the live positions of stored nodes through an explicit
position map `pos : Nat → ℚ × ℚ`, reflecting that Go buckets hold references
whose coordinates are read at query time.
-/

/-- The 64-bit two's-complement bit pattern of a Go `int`, as a natural
number below 2^64.  The Euclidean remainder makes negative values map to
their wrapped pattern. -/
def toBits64 (z : Int) : Nat :=
  (z % 18446744073709551616).toNat

/-- Reinterpret a 64-bit pattern as a signed Go `int`. -/
def wrap64 (n : Nat) : Int :=
  if n < 9223372036854775808 then (n : Int) else (n : Int) - 18446744073709551616

/-- Model of `pairPoint` (src/spatial_hash.go:88-91): combines x,y cell coordinates
into a single Go `int` key by `(x << 16) ^ y`.  The left shift multiplies by
2^16 and wraps modulo 2^64; the xor acts on the two's-complement patterns. -/
def pairPoint (x y : Int) : Int :=
  wrap64 (toBits64 (x * 65536) ^^^ toBits64 y)

/-- A node as the index sees it (src/spatial_hash.go:17-30): a stable id, the
live position `(x, y)` and the cached previous position `(oldX, oldY)`. -/
structure GoNode where
  id : Nat
  x : ℚ
  y : ℚ
  oldX : ℚ
  oldY : ℚ
deriving Repr, DecidableEq

/-- The spatial hash state (src/spatial_hash.go:47-52): the cell size and the
cell table mapping each touched key to its bucket.  A bucket is the list of
node ids currently stored in it (the source keys the bucket map by id, so the
membership is a set of ids). -/
structure SpatialHash where
  cellSize : ℚ
  buckets : List (Int × List Nat)
deriving Repr, DecidableEq

/-- Model of `Load` on the cell table: the first entry with the given key. -/
def assocLoad {α : Type} : List (Int × α) → Int → Option α
  | [], _ => none
  | (k, v) :: rest, k0 => if k = k0 then some v else assocLoad rest k0

/-- Model of `Store` on the cell table: replace the entry for the key, or append it. -/
def assocStore {α : Type} : List (Int × α) → Int → α → List (Int × α)
  | [], k0, v0 => [(k0, v0)]
  | (k, v) :: rest, k0, v0 =>
    if k = k0 then (k0, v0) :: rest else (k, v) :: assocStore rest k0 v0

/-- Model of `bucket.Add` (src/spatial_hash.go:74-76): insert-or-overwrite by id. -/
def bucketAdd (b : List Nat) (id : Nat) : List Nat :=
  if id ∈ b then b else id :: b

/-- Model of `bucket.Delete` (src/spatial_hash.go:79-81): remove the id if present. -/
def bucketDel (b : List Nat) (id : Nat) : List Nat :=
  b.filter (fun j => j != id)

/-- Model of `calculatePositionKey` (src/spatial_hash.go:93-98) instantiated at a
floating-point coordinate type: the division is exact and `math.Floor` is the
mathematical floor, so the cell coordinates are `⌊x / cellSize⌋`. -/
def calculatePositionKey (sh : SpatialHash) (x y : ℚ) : Int :=
  pairPoint (Rat.floor (x / sh.cellSize)) (Rat.floor (y / sh.cellSize))

/-- Model of `Put` (src/spatial_hash.go:100-114): get or create the bucket for the
node's current cell and add the node.  The node itself is not mutated, so it
is returned unchanged. -/
def Put (sh : SpatialHash) (n : GoNode) : SpatialHash × GoNode :=
  let key := calculatePositionKey sh n.x n.y
  let b := match assocLoad sh.buckets key with
    | some b => b
    | none => []
  ({ sh with buckets := assocStore sh.buckets key (bucketAdd b n.id) }, n)

/-- Model of `Remove` (src/spatial_hash.go:116-124): if a bucket exists for the cell of
the node's current position, delete the node's id from it. -/
def Remove (sh : SpatialHash) (n : GoNode) : SpatialHash × GoNode :=
  let key := calculatePositionKey sh n.x n.y
  match assocLoad sh.buckets key with
  | none => (sh, n)
  | some b => ({ sh with buckets := assocStore sh.buckets key (bucketDel b n.id) }, n)

/-- Model of `Update` (src/spatial_hash.go:126-152): compute the key of the current
position and the key of the cached previous position; on a cell change delete
the node from the old bucket (if present) and add it to the new bucket
(created if absent); in all cases overwrite the cached previous position with
the current position. -/
def Update (sh : SpatialHash) (n : GoNode) : SpatialHash × GoNode :=
  let key := calculatePositionKey sh n.x n.y
  let oldKey := calculatePositionKey sh n.oldX n.oldY
  let sh2 :=
    if oldKey ≠ key then
      let sh1 := match assocLoad sh.buckets oldKey with
        | none => sh
        | some b => { sh with buckets := assocStore sh.buckets oldKey (bucketDel b n.id) }
      let b2 := match assocLoad sh1.buckets key with
        | some b => b
        | none => []
      { sh1 with buckets := assocStore sh1.buckets key (bucketAdd b2 n.id) }
    else sh
  (sh2, { n with oldX := n.x, oldY := n.y })

/-- Helper for `intRange`: the `n` consecutive integers starting at `lo`. -/
def intRangeAux (lo : Int) : Nat → List Int
  | 0 => []
  | n + 1 => lo :: intRangeAux (lo + 1) n

/-- The inclusive range of cell coordinates `lo..hi` that the query loops
iterate over. -/
def intRange (lo hi : Int) : List Int :=
  intRangeAux lo (hi + 1 - lo).toNat

/-- Model of `Search` (src/spatial_hash.go:155-193): visit every cell of the bounding box
of the disc and keep the ids of stored nodes whose squared distance to the
center is at most `radius * radius`.  `pos` gives each stored node's live
position, read through the stored reference as the source does. -/
def Search (sh : SpatialHash) (pos : Nat → ℚ × ℚ) (x y radius : ℚ) : List Nat :=
  (intRange (Rat.floor ((y - radius) / sh.cellSize)) (Rat.floor ((y + radius) / sh.cellSize))).flatMap
    (fun yy =>
      (intRange (Rat.floor ((x - radius) / sh.cellSize)) (Rat.floor ((x + radius) / sh.cellSize))).flatMap
        (fun xx =>
          match assocLoad sh.buckets (pairPoint xx yy) with
          | none => []
          | some b => b.filter (fun id =>
              decide (((pos id).1 - x) * ((pos id).1 - x) + ((pos id).2 - y) * ((pos id).2 - y)
                ≤ radius * radius))))

/-- Model of `QueryRect` (src/spatial_hash.go:195-230): visit every cell of the
rectangle centered at `(x, y)` with the given width and height and return
every id found, with no geometric filter. -/
def QueryRect (sh : SpatialHash) (x y width height : ℚ) : List Nat :=
  (intRange (Rat.floor ((y - height / 2) / sh.cellSize)) (Rat.floor ((y + height / 2) / sh.cellSize))).flatMap
    (fun yy =>
      (intRange (Rat.floor ((x - width / 2) / sh.cellSize)) (Rat.floor ((x + width / 2) / sh.cellSize))).flatMap
        (fun xx =>
          match assocLoad sh.buckets (pairPoint xx yy) with
          | none => []
          | some b => b))

/-- Model of `Reset` (src/spatial_hash.go:232-235): clear the cell table. -/
def Reset (sh : SpatialHash) : SpatialHash :=
  { sh with buckets := [] }

/-- Whether the bucket for key `k` currently holds `id`. -/
def memBucket (sh : SpatialHash) (k : Int) (id : Nat) : Bool :=
  match assocLoad sh.buckets k with
  | none => false
  | some b => decide (id ∈ b)

/-- The state hypothesis of the query claims: every listed node id is stored
in the bucket of the cell of its current position, and every id stored in any
bucket is a listed node. -/
def WellIndexed (sh : SpatialHash) (pos : Nat → ℚ × ℚ) (ids : List Nat) : Prop :=
  (∀ id ∈ ids, memBucket sh (calculatePositionKey sh (pos id).1 (pos id).2) id = true) ∧
  (∀ k b, assocLoad sh.buckets k = some b → ∀ id ∈ b, id ∈ ids)

/-- The race model of the get-or-create path (src/spatial_hash.go:105-113):
buckets live on a heap of pointers, the cell table maps keys to pointers, and
each `Put` call decomposes into the three shared-memory steps the source
performs: `Load` on the table, `Store` of a freshly created bucket when the
load saw absence, and `Add` on the bucket the thread holds. -/
structure RaceState where
  tbl : List (Int × Nat)
  heap : List (List Nat)
deriving Repr, DecidableEq

/-- Program counter of one in-flight `Put` call in the race model. -/
inductive PutPhase where
  | toLoad
  | toCreateStore
  | toAdd
  | finished
deriving Repr, DecidableEq

/-- One thread of the race model: its phase and the bucket pointer it holds. -/
structure PutThread where
  phase : PutPhase
  reg : Nat
deriving Repr, DecidableEq

/-- One atomic step of a `Put` call on key `k` inserting `id`, as the source
orders them: load the table entry; if it was absent, create a bucket and
store it; finally add the id to the bucket the thread holds. -/
def putStep (k : Int) (id : Nat) (s : RaceState) (t : PutThread) : RaceState × PutThread :=
  match t.phase with
  | .toLoad =>
    match assocLoad s.tbl k with
    | some p => (s, { phase := .toAdd, reg := p })
    | none => (s, { phase := .toCreateStore, reg := 0 })
  | .toCreateStore =>
    ({ tbl := assocStore s.tbl k s.heap.length, heap := s.heap ++ [[]] },
     { phase := .toAdd, reg := s.heap.length })
  | .toAdd =>
    ({ s with heap := s.heap.set t.reg (bucketAdd (s.heap.getD t.reg []) id) },
     { phase := .finished, reg := t.reg })
  | .finished => (s, t)

/-- Run two racing `Put` calls on the same key under a schedule: `true` steps
the first thread (inserting `id1`), `false` the second (inserting `id2`). -/
def runRace (k : Int) (id1 id2 : Nat) :
    List Bool → RaceState × PutThread × PutThread → RaceState × PutThread × PutThread
  | [], st => st
  | c :: rest, (s, t1, t2) =>
    if c then
      let r := putStep k id1 s t1
      runRace k id1 id2 rest (r.1, r.2, t2)
    else
      let r := putStep k id2 s t2
      runRace k id1 id2 rest (r.1, t1, r.2)

/-- Model of `calculatePositionKey` (src/spatial_hash.go:93-98) instantiated
at an integral coordinate type: the division `x / sh.cellSize` happens in the
integer type first, and Go integer division truncates toward zero, so the
cell index is the truncated quotient (`math.Floor` then acts on an already
integral value). -/
def cellIndexInt (coord cellSize : Int) : Int :=
  Int.tdiv coord cellSize

/-- The cell index as the spec words it: `floor(coord / cellSize)` under real
division, which on integers is floor division. -/
def cellIndexSpecInt (coord cellSize : Int) : Int :=
  Int.fdiv coord cellSize

/-- Concrete hash used by the counterexamples: cell size 100, no bucket yet. -/
def shCex : SpatialHash := { cellSize := 100, buckets := [] }

/-- Concrete node used by the counterexamples: id 1, live position (150, 150),
cached previous position (0, 0) (a caller that never initialised the cache to
the live position, as in the repository test at src/spatial_hash.go:436-447). -/
def nCex : GoNode := { id := 1, x := 150, y := 150, oldX := 0, oldY := 0 }

/-- The demonstration run for the get-or-create race: two `Put` calls on the
same never-before-seen key 0, thread one inserting id 1 and thread two
inserting id 2, interleaved as Load1, Load2, Store1, Add1, Store2, Add2. -/
def raceDemo : RaceState × PutThread × PutThread :=
  runRace 0 1 2 [true, false, true, true, false, false]
    (⟨[], []⟩, ⟨.toLoad, 0⟩, ⟨.toLoad, 0⟩)

/-- Position map used by the query witnesses: every id sits at the origin. -/
def posW : Nat → ℚ × ℚ := fun _ => (0, 0)

/-- Key of the origin cell, used by the concrete query witness state. -/
def keyW : Int := pairPoint 0 0

/-- Concrete well-indexed state for the rectangle-query witness: cell size 1,
one node with id 5 at the origin, stored in the bucket of the origin cell. -/
def shW6 : SpatialHash := { cellSize := 1, buckets := [(keyW, [5])] }

/-- Fold of `Remove` calls, used to state what can happen after `Reset`
without a `Put` or `Update` call. -/
def applyRemoves (sh : SpatialHash) : List GoNode → SpatialHash
  | [] => sh
  | n :: rest => applyRemoves (Remove sh n).1 rest

/-- Hash used by the C8 counterexample: cell size 1. -/
def shC8 : SpatialHash := { cellSize := 1, buckets := [] }

/-- Node used by the C8 counterexample: id 1, current position (0, 0), cached
previous position (3, 3), a different cell at cell size 1. -/
def nC8 : GoNode := { id := 1, x := 0, y := 0, oldX := 3, oldY := 3 }

/-- Position map of the C8 counterexample. -/
def posC8 : Nat → ℚ × ℚ := fun _ => (0, 0)

theorem assocLoad_assocStore_self {α : Type} (m : List (Int × α)) (k : Int) (v : α) :
    assocLoad (assocStore m k v) k = some v := by
  induction m with
  | nil => simp [assocLoad, assocStore]
  | cons hd tl ih =>
    obtain ⟨k1, v1⟩ := hd
    by_cases h : k1 = k
    · simp [assocStore, assocLoad, h]
    · simp [assocStore, assocLoad, h, ih]

theorem assocLoad_assocStore_ne {α : Type} (m : List (Int × α)) (k k2 : Int) (v : α)
    (h : k2 ≠ k) : assocLoad (assocStore m k v) k2 = assocLoad m k2 := by
  induction m with
  | nil => simp [assocLoad, assocStore, Ne.symm h]
  | cons hd tl ih =>
    obtain ⟨k1, v1⟩ := hd
    by_cases h1 : k1 = k
    · subst h1
      simp [assocStore, assocLoad, Ne.symm h]
    · simp only [assocStore, assocLoad, if_neg h1]
      by_cases h2 : k1 = k2
      · simp [assocLoad, h2]
      · simp [assocLoad, h2, ih]

theorem mem_bucketAdd (b : List Nat) (id j : Nat) :
    j ∈ bucketAdd b id ↔ j = id ∨ j ∈ b := by
  unfold bucketAdd
  by_cases h : id ∈ b
  · simp only [if_pos h]
    constructor
    · intro hj
      exact Or.inr hj
    · rintro (rfl | hj)
      · exact h
      · exact hj
  · simp [if_neg h]

theorem mem_bucketDel (b : List Nat) (id j : Nat) :
    j ∈ bucketDel b id ↔ j ∈ b ∧ j ≠ id := by
  simp [bucketDel, List.mem_filter]

theorem mem_intRangeAux (n : Nat) (lo a : Int) :
    a ∈ intRangeAux lo n ↔ lo ≤ a ∧ a < lo + n := by
  induction n generalizing lo with
  | zero =>
    simp only [intRangeAux, List.not_mem_nil, false_iff]
    omega
  | succ m ih =>
    simp only [intRangeAux, List.mem_cons, ih]
    omega

theorem mem_intRange (lo hi a : Int) : a ∈ intRange lo hi ↔ lo ≤ a ∧ a ≤ hi := by
  unfold intRange
  rw [mem_intRangeAux]
  omega

theorem memBucket_true_iff (sh : SpatialHash) (k : Int) (id : Nat) :
    memBucket sh k id = true ↔ ∃ b, assocLoad sh.buckets k = some b ∧ id ∈ b := by
  unfold memBucket
  cases h : assocLoad sh.buckets k with
  | none => simp
  | some b => simp [h]

theorem put_state (sh : SpatialHash) (n : GoNode) :
    (Put sh n).1.buckets = assocStore sh.buckets (calculatePositionKey sh n.x n.y)
      (bucketAdd ((assocLoad sh.buckets (calculatePositionKey sh n.x n.y)).getD []) n.id) := by
  unfold Put
  cases h : assocLoad sh.buckets (calculatePositionKey sh n.x n.y) <;> simp [h]

theorem update_state_same (sh : SpatialHash) (n : GoNode)
    (hk : calculatePositionKey sh n.oldX n.oldY = calculatePositionKey sh n.x n.y) :
    (Update sh n).1 = sh := by
  unfold Update
  simp [hk]

theorem update_node (sh : SpatialHash) (n : GoNode) :
    (Update sh n).2 = { n with oldX := n.x, oldY := n.y } := rfl

theorem update_load_new (sh : SpatialHash) (n : GoNode)
    (hk : calculatePositionKey sh n.oldX n.oldY ≠ calculatePositionKey sh n.x n.y) :
    assocLoad (Update sh n).1.buckets (calculatePositionKey sh n.x n.y)
      = some (bucketAdd ((assocLoad sh.buckets (calculatePositionKey sh n.x n.y)).getD []) n.id) := by
  simp only [Update]
  rw [if_pos hk]
  cases hold : assocLoad sh.buckets (calculatePositionKey sh n.oldX n.oldY) with
  | none =>
    simp only [hold]
    cases hnew : assocLoad sh.buckets (calculatePositionKey sh n.x n.y) <;>
      simp [hnew, assocLoad_assocStore_self]
  | some b =>
    simp only [hold]
    have hne : assocLoad (assocStore sh.buckets (calculatePositionKey sh n.oldX n.oldY)
        (bucketDel b n.id)) (calculatePositionKey sh n.x n.y)
        = assocLoad sh.buckets (calculatePositionKey sh n.x n.y) :=
      assocLoad_assocStore_ne _ _ _ _ (Ne.symm hk)
    simp only [hne]
    cases hnew : assocLoad sh.buckets (calculatePositionKey sh n.x n.y) <;>
      simp [hnew, assocLoad_assocStore_self]

theorem update_load_old (sh : SpatialHash) (n : GoNode)
    (hk : calculatePositionKey sh n.oldX n.oldY ≠ calculatePositionKey sh n.x n.y) :
    assocLoad (Update sh n).1.buckets (calculatePositionKey sh n.oldX n.oldY)
      = (assocLoad sh.buckets (calculatePositionKey sh n.oldX n.oldY)).map
          (fun b => bucketDel b n.id) := by
  simp only [Update]
  rw [if_pos hk]
  cases hold : assocLoad sh.buckets (calculatePositionKey sh n.oldX n.oldY) with
  | none =>
    simp only [hold]
    cases hnew : assocLoad sh.buckets (calculatePositionKey sh n.x n.y) <;>
      simp [hnew, hold, assocLoad_assocStore_ne _ _ _ _ hk]
  | some b =>
    simp only [hold]
    have hne : assocLoad (assocStore sh.buckets (calculatePositionKey sh n.oldX n.oldY)
        (bucketDel b n.id)) (calculatePositionKey sh n.x n.y)
        = assocLoad sh.buckets (calculatePositionKey sh n.x n.y) :=
      assocLoad_assocStore_ne _ _ _ _ (Ne.symm hk)
    cases hnew : assocLoad sh.buckets (calculatePositionKey sh n.x n.y) <;>
      simp [hne, hnew, assocLoad_assocStore_ne _ _ _ _ hk, assocLoad_assocStore_self]

theorem update_load_other (sh : SpatialHash) (n : GoNode)
    (hk : calculatePositionKey sh n.oldX n.oldY ≠ calculatePositionKey sh n.x n.y)
    (k : Int) (h1 : k ≠ calculatePositionKey sh n.x n.y)
    (h2 : k ≠ calculatePositionKey sh n.oldX n.oldY) :
    assocLoad (Update sh n).1.buckets k = assocLoad sh.buckets k := by
  simp only [Update]
  rw [if_pos hk]
  cases hold : assocLoad sh.buckets (calculatePositionKey sh n.oldX n.oldY) with
  | none =>
    simp only [hold]
    cases hnew : assocLoad sh.buckets (calculatePositionKey sh n.x n.y) <;>
      simp [hnew, assocLoad_assocStore_ne _ _ _ _ h1]
  | some b =>
    simp only [hold]
    cases hnew : assocLoad (assocStore sh.buckets (calculatePositionKey sh n.oldX n.oldY)
        (bucketDel b n.id)) (calculatePositionKey sh n.x n.y) <;>
      simp [hnew, assocLoad_assocStore_ne _ _ _ _ h1, assocLoad_assocStore_ne _ _ _ _ h2]

theorem remove_state_none (sh : SpatialHash) (n : GoNode)
    (hl : assocLoad sh.buckets (calculatePositionKey sh n.x n.y) = none) :
    (Remove sh n).1 = sh := by
  simp only [Remove, hl]

theorem remove_state_some (sh : SpatialHash) (n : GoNode) (b : List Nat)
    (hl : assocLoad sh.buckets (calculatePositionKey sh n.x n.y) = some b) :
    (Remove sh n).1.buckets
      = assocStore sh.buckets (calculatePositionKey sh n.x n.y) (bucketDel b n.id) := by
  simp only [Remove, hl]

/-- C3 counterexample: after `Put` of a node whose cached previous position
differs from its current position, the node is a member of the bucket keyed
by its current position (150, 150), but its cached previous position is still
(0, 0): the cache does not equal the position used to compute the membership,
because `Put` never writes the cache. -/
theorem put_cache_cex :
    memBucket (Put shCex nCex).1 (calculatePositionKey shCex nCex.x nCex.y) nCex.id = true ∧
    (Put shCex nCex).2.oldX ≠ nCex.x := by
  constructor
  · unfold memBucket
    rw [put_state, assocLoad_assocStore_self]
    simp [mem_bucketAdd]
  · show (0 : ℚ) ≠ 150
    norm_num

/-- C3 as amended: after any `Update`, the cached previous position equals
the current position, which is the position `Update` used for the membership
decision (and on a cell migration the node is indeed a member of the bucket
for that position); `Put` leaves the node, hence the cache, untouched while
inserting by the current position, so after `Put` the invariant holds only if
the cache already equalled the current position beforehand. -/
theorem update_cache_matches_membership (sh : SpatialHash) (n : GoNode) :
    ((Update sh n).2.oldX = n.x ∧ (Update sh n).2.oldY = n.y) ∧
    (calculatePositionKey sh n.x n.y ≠ calculatePositionKey sh n.oldX n.oldY →
      memBucket (Update sh n).1 (calculatePositionKey sh n.x n.y) n.id = true) ∧
    ((Put sh n).2 = n ∧
      memBucket (Put sh n).1 (calculatePositionKey sh n.x n.y) n.id = true) := by
  refine ⟨⟨rfl, rfl⟩, fun h => ?_, rfl, ?_⟩
  · unfold memBucket
    rw [update_load_new sh n (Ne.symm h)]
    simp [mem_bucketAdd]
  · unfold memBucket
    rw [put_state, assocLoad_assocStore_self]
    simp [mem_bucketAdd]

/-- C4: `Update` computes the key of the current position and the key of the
cached previous position.  When they differ, the node ends up a member of the
bucket for the new key, is no longer a member of the bucket for the old key,
buckets at all other keys are untouched, and the membership of every other
node in every bucket is unchanged.  When they are equal, the hash state is
not mutated at all.  In both cases the cached previous position is
overwritten with the current position and the rest of the node is kept. -/
theorem update_migration_spec (sh : SpatialHash) (n : GoNode) :
    ((Update sh n).2.id = n.id ∧ (Update sh n).2.x = n.x ∧ (Update sh n).2.y = n.y ∧
     (Update sh n).2.oldX = n.x ∧ (Update sh n).2.oldY = n.y) ∧
    (calculatePositionKey sh n.x n.y = calculatePositionKey sh n.oldX n.oldY →
      (Update sh n).1 = sh) ∧
    (calculatePositionKey sh n.x n.y ≠ calculatePositionKey sh n.oldX n.oldY →
      memBucket (Update sh n).1 (calculatePositionKey sh n.x n.y) n.id = true ∧
      memBucket (Update sh n).1 (calculatePositionKey sh n.oldX n.oldY) n.id = false ∧
      (∀ k, k ≠ calculatePositionKey sh n.x n.y →
        k ≠ calculatePositionKey sh n.oldX n.oldY →
        assocLoad (Update sh n).1.buckets k = assocLoad sh.buckets k) ∧
      (∀ k id2, id2 ≠ n.id → memBucket (Update sh n).1 k id2 = memBucket sh k id2)) := by
  refine ⟨⟨rfl, rfl, rfl, rfl, rfl⟩, fun h => update_state_same sh n h.symm, fun h => ?_⟩
  have hk := Ne.symm h
  refine ⟨?_, ?_, fun k h1 h2 => update_load_other sh n hk k h1 h2, ?_⟩
  · unfold memBucket
    rw [update_load_new sh n hk]
    simp [mem_bucketAdd]
  · unfold memBucket
    rw [update_load_old sh n hk]
    cases hb : assocLoad sh.buckets (calculatePositionKey sh n.oldX n.oldY) <;>
      simp [mem_bucketDel]
  · intro k id2 hid
    by_cases e1 : k = calculatePositionKey sh n.x n.y
    · subst e1
      unfold memBucket
      rw [update_load_new sh n hk]
      cases hb : assocLoad sh.buckets (calculatePositionKey sh n.x n.y) with
      | none => simp [mem_bucketAdd, hid]
      | some b => simp [mem_bucketAdd, hid, decide_eq_decide]
    · by_cases e2 : k = calculatePositionKey sh n.oldX n.oldY
      · subst e2
        unfold memBucket
        rw [update_load_old sh n hk]
        cases hb : assocLoad sh.buckets (calculatePositionKey sh n.oldX n.oldY) with
        | none => simp
        | some b => simp [mem_bucketDel, hid, decide_eq_decide]
      · unfold memBucket
        rw [update_load_other sh n hk k e1 e2]

/-- C9: removing a node that is absent from the bucket of its current
position (a node removed twice, or never inserted) is a total no-op on the
observable index state: every membership of every bucket is exactly as
before the call. -/
theorem remove_absent_noop (sh : SpatialHash) (n : GoNode)
    (h : memBucket sh (calculatePositionKey sh n.x n.y) n.id = false) :
    ∀ k id2, memBucket (Remove sh n).1 k id2 = memBucket sh k id2 := by
  intro k id2
  cases hl : assocLoad sh.buckets (calculatePositionKey sh n.x n.y) with
  | none => rw [remove_state_none sh n hl]
  | some b =>
    have hnid : n.id ∉ b := by
      unfold memBucket at h
      rw [hl] at h
      simpa using h
    unfold memBucket
    rw [remove_state_some sh n b hl]
    by_cases e : k = calculatePositionKey sh n.x n.y
    · subst e
      rw [assocLoad_assocStore_self, hl]
      simp only [decide_eq_decide, mem_bucketDel]
      constructor
      · intro hm
        exact hm.1
      · intro hm
        exact ⟨hm, fun e2 => hnid (e2 ▸ hm)⟩
    · rw [assocLoad_assocStore_ne _ _ _ _ e]

/-- C9 witness: removing the never-inserted node `nCex` from the empty hash
leaves every membership unchanged. -/
theorem remove_absent_noop_witness :
    memBucket (Remove shCex nCex).1 7 3 = memBucket shCex 7 3 :=
  remove_absent_noop shCex nCex rfl 7 3

/-- C10: `Put` returns the node unchanged — in particular it never writes the
cached previous position, which only `Update` does — and the bucket at every
key other than the key of the cell of the current position of the node is left
exactly as it was. -/
theorem put_frame (sh : SpatialHash) (n : GoNode) (k : Int) :
    (Put sh n).2 = n ∧
    (k ≠ calculatePositionKey sh n.x n.y →
      assocLoad (Put sh n).1.buckets k = assocLoad sh.buckets k) := by
  refine ⟨rfl, fun hk => ?_⟩
  rw [put_state]
  exact assocLoad_assocStore_ne _ _ _ _ hk

/-- C5 counterexample: for the integral coordinate -5 and cell size 10 the
source computes the quotient in the integer type first, and Go integer
division truncates toward zero, so the cell index is 0, while
floor(-5 / 10) under real division is -1. -/
theorem cellIndex_int_cex :
    cellIndexInt (-5) 10 = 0 ∧ cellIndexSpecInt (-5) 10 = -1 ∧
    cellIndexInt (-5) 10 ≠ cellIndexSpecInt (-5) 10 := by
  refine ⟨by decide, by decide, by decide⟩

/-- C5 as amended: at an integral coordinate type the cell index is the
truncated quotient `trunc(coord / cellSize)` (Go integer division composed
with `math.Floor` on an already integral value).  It agrees with the
floor-of-real-division index exactly when the coordinate is nonnegative or
the cell size divides it; for a negative coordinate not divisible by the cell
size it exceeds the floor index by one.  At floating-point coordinate types
the index is the floor, as the spec states. -/
theorem cellIndex_int_trunc (coord cellSize : Int) (hcs : 0 < cellSize) :
    cellIndexInt coord cellSize = Int.tdiv coord cellSize ∧
    (0 ≤ coord → cellIndexInt coord cellSize = cellIndexSpecInt coord cellSize) ∧
    (cellSize ∣ coord → cellIndexInt coord cellSize = cellIndexSpecInt coord cellSize) ∧
    (coord < 0 → ¬ cellSize ∣ coord →
      cellIndexInt coord cellSize = cellIndexSpecInt coord cellSize + 1) := by
  refine ⟨rfl, ?_, ?_, ?_⟩
  · intro hc
    unfold cellIndexInt cellIndexSpecInt
    rw [Int.tdiv_eq_ediv hc hcs.le, Int.fdiv_eq_ediv coord hcs.le]
  · rintro ⟨c, rfl⟩
    unfold cellIndexInt cellIndexSpecInt
    rw [Int.mul_tdiv_cancel_left c (by omega), Int.mul_fdiv_cancel_left c (by omega)]
  · intro hneg hnd
    unfold cellIndexInt cellIndexSpecInt
    have hm : 0 ≤ -coord := by omega
    have ht : Int.tdiv coord cellSize = -((-coord) / cellSize) := by
      have h0 := Int.neg_tdiv (-coord) cellSize
      rw [neg_neg] at h0
      rw [h0, Int.tdiv_eq_ediv hm hcs.le]
    have hf : Int.fdiv coord cellSize = coord / cellSize := Int.fdiv_eq_ediv coord hcs.le
    rw [ht, hf]
    have hq := Int.emod_add_ediv (-coord) cellSize
    have hr0 : 0 ≤ (-coord) % cellSize := Int.emod_nonneg _ (by omega)
    have hrlt : (-coord) % cellSize < cellSize := Int.emod_lt_of_pos _ hcs
    have hrne : (-coord) % cellSize ≠ 0 := by
      intro h0
      exact hnd ((Int.dvd_neg).mp (Int.dvd_of_emod_eq_zero h0))
    have hpos : 0 < (-coord) % cellSize := lt_of_le_of_ne hr0 (Ne.symm hrne)
    have huniq : coord / cellSize = -((-coord) / cellSize) - 1 :=
      ((Int.ediv_emod_unique (a := coord) (b := cellSize)
          (r := cellSize - (-coord) % cellSize) (q := -((-coord) / cellSize) - 1) hcs).mpr
        ⟨by linear_combination -hq, by linarith, by linarith⟩).1
    linarith [huniq]

/-- C5 witness: cell size 10 at the nonnegative coordinate 25, at the
divisible negative coordinate -30, and at the negative coordinate -5. -/
theorem cellIndex_int_trunc_witness :
    cellIndexInt 25 10 = cellIndexSpecInt 25 10 ∧
    cellIndexInt (-30) 10 = cellIndexSpecInt (-30) 10 ∧
    cellIndexInt (-5) 10 = cellIndexSpecInt (-5) 10 + 1 :=
  ⟨(cellIndex_int_trunc 25 10 (by decide)).2.1 (by decide),
   (cellIndex_int_trunc (-30) 10 (by decide)).2.2.1 (by decide),
   (cellIndex_int_trunc (-5) 10 (by decide)).2.2.2 (by decide) (by decide)⟩

theorem toBits64_lt (z : Int) : toBits64 z < 18446744073709551616 := by
  unfold toBits64
  omega

theorem toBits64_shift_mod (x : Int) : toBits64 (x * 65536) % 65536 = 0 := by
  unfold toBits64
  omega

theorem wrap64_inj (a b : Nat) (ha : a < 18446744073709551616)
    (hb : b < 18446744073709551616) (h : wrap64 a = wrap64 b) : a = b := by
  unfold wrap64 at h
  split_ifs at h <;> omega

theorem xor_mod_pow16 (a b : Nat) (ha : a % 65536 = 0) :
    (a ^^^ b) % 65536 = b % 65536 := by
  have h16 : (65536 : Nat) = 2 ^ 16 := by norm_num
  apply Nat.eq_of_testBit_eq
  intro i
  rw [h16] at ha ⊢
  rw [Nat.testBit_mod_two_pow, Nat.testBit_mod_two_pow, Nat.testBit_xor]
  by_cases hi : i < 16
  · have ha2 : a.testBit i = false := by
      have h0 := Nat.testBit_mod_two_pow a 16 i
      rw [ha] at h0
      simpa [hi] using h0.symm
    simp [hi, ha2]
  · simp [hi]

theorem xor_cancel_right (a b : Nat) : (a ^^^ b) ^^^ b = a := by
  rw [Nat.xor_assoc, Nat.xor_self, Nat.xor_zero]

theorem toBits64_lowbits_inj (y1 y2 : Int) (h1 : -32768 < y1) (h2 : y1 < 32768)
    (h3 : -32768 < y2) (h4 : y2 < 32768)
    (h : toBits64 y1 % 65536 = toBits64 y2 % 65536) : y1 = y2 := by
  unfold toBits64 at h
  omega

theorem toBits64_shift_inj (x1 x2 : Int) (h1 : -32768 < x1) (h2 : x1 < 32768)
    (h3 : -32768 < x2) (h4 : x2 < 32768)
    (h : toBits64 (x1 * 65536) = toBits64 (x2 * 65536)) : x1 = x2 := by
  unfold toBits64 at h
  omega

/-- C7: the cell key function packs `cellX` into the high bits by a 16-bit
left shift and xors in `cellY`, and it is injective whenever both coordinates
have magnitude below 32768: two distinct in-range pairs always get distinct
keys.  Outside that range keys alias: the out-of-range pair (0, 65536) gets
the same key as the in-range pair (1, 0). -/
theorem pairPoint_injective_16bit :
    (∀ x1 y1 x2 y2 : Int,
      -32768 < x1 → x1 < 32768 → -32768 < y1 → y1 < 32768 →
      -32768 < x2 → x2 < 32768 → -32768 < y2 → y2 < 32768 →
      pairPoint x1 y1 = pairPoint x2 y2 → x1 = x2 ∧ y1 = y2) ∧
    (pairPoint 0 65536 = pairPoint 1 0 ∧ ((0 : Int), (65536 : Int)) ≠ ((1 : Int), (0 : Int))) := by
  constructor
  · intro x1 y1 x2 y2 hx1a hx1b hy1a hy1b hx2a hx2b hy2a hy2b h
    have hX : toBits64 (x1 * 65536) ^^^ toBits64 y1
        = toBits64 (x2 * 65536) ^^^ toBits64 y2 := by
      apply wrap64_inj _ _ ?_ ?_ h
      · exact Nat.lt_of_lt_of_le
          (Nat.xor_lt_two_pow (n := 64) (by simpa using toBits64_lt (x1 * 65536))
            (by simpa using toBits64_lt y1)) (by norm_num)
      · exact Nat.lt_of_lt_of_le
          (Nat.xor_lt_two_pow (n := 64) (by simpa using toBits64_lt (x2 * 65536))
            (by simpa using toBits64_lt y2)) (by norm_num)
    have hlow : toBits64 y1 % 65536 = toBits64 y2 % 65536 := by
      have := congrArg (fun t => t % 65536) hX
      simpa [xor_mod_pow16 _ _ (toBits64_shift_mod x1),
        xor_mod_pow16 _ _ (toBits64_shift_mod x2)] using this
    have hy : y1 = y2 := toBits64_lowbits_inj y1 y2 hy1a hy1b hy2a hy2b hlow
    subst hy
    have hx : toBits64 (x1 * 65536) = toBits64 (x2 * 65536) := by
      have h1 := congrArg (fun t => t ^^^ toBits64 y1) hX
      simpa [xor_cancel_right] using h1
    exact ⟨toBits64_shift_inj x1 x2 hx1a hx1b hx2a hx2b hx, rfl⟩
  · constructor
    · decide
    · decide

/-- C2: the get-or-create path of `Put` is a separate load-then-store, not a
single atomic operation.  In the interleaving `raceDemo` both racing calls on
the fresh key 0 run to completion, two buckets are created (heap length 2),
and the bucket finally published for key 0 is thread two's, holding only id
2: thread one's completed insertion of id 1 was discarded by thread two's
publish, contradicting the claimed atomicity. -/
theorem put_getOrCreate_race_loses_insertion :
    raceDemo.2.1.phase = PutPhase.finished ∧
    raceDemo.2.2.phase = PutPhase.finished ∧
    raceDemo.1.heap.length = 2 ∧
    assocLoad raceDemo.1.tbl 0 = some 1 ∧
    raceDemo.1.heap.getD 1 [] = [2] ∧
    1 ∉ raceDemo.1.heap.getD 1 [] := by
  refine ⟨rfl, rfl, rfl, rfl, rfl, by decide⟩

theorem ratFloor_eq (q : ℚ) : Rat.floor q = ⌊q⌋ := rfl

theorem ratFloor_div_mono (a b cs : ℚ) (hcs : 0 < cs) (h : a ≤ b) :
    Rat.floor (a / cs) ≤ Rat.floor (b / cs) := by
  rw [ratFloor_eq, ratFloor_eq]
  apply Int.floor_le_floor
  gcongr

theorem mem_search (sh : SpatialHash) (pos : Nat → ℚ × ℚ) (x y radius : ℚ) (id : Nat) :
    id ∈ Search sh pos x y radius ↔
      ∃ yy xx : Int,
        Rat.floor ((y - radius) / sh.cellSize) ≤ yy ∧
        yy ≤ Rat.floor ((y + radius) / sh.cellSize) ∧
        Rat.floor ((x - radius) / sh.cellSize) ≤ xx ∧
        xx ≤ Rat.floor ((x + radius) / sh.cellSize) ∧
        (∃ b, assocLoad sh.buckets (pairPoint xx yy) = some b ∧ id ∈ b) ∧
        ((pos id).1 - x) * ((pos id).1 - x) + ((pos id).2 - y) * ((pos id).2 - y)
          ≤ radius * radius := by
  unfold Search
  rw [List.mem_flatMap]
  constructor
  · rintro ⟨yy, hyy, hin⟩
    rw [List.mem_flatMap] at hin
    obtain ⟨xx, hxx, hin2⟩ := hin
    rw [mem_intRange] at hyy hxx
    cases hb : assocLoad sh.buckets (pairPoint xx yy) with
    | none =>
      rw [hb] at hin2
      simp at hin2
    | some b =>
      rw [hb] at hin2
      rw [List.mem_filter, decide_eq_true_iff] at hin2
      exact ⟨yy, xx, hyy.1, hyy.2, hxx.1, hxx.2, ⟨b, hb, hin2.1⟩, hin2.2⟩
  · rintro ⟨yy, xx, h1, h2, h3, h4, ⟨b, hb, hid⟩, hdist⟩
    refine ⟨yy, (mem_intRange _ _ _).mpr ⟨h1, h2⟩, ?_⟩
    rw [List.mem_flatMap]
    refine ⟨xx, (mem_intRange _ _ _).mpr ⟨h3, h4⟩, ?_⟩
    rw [hb, List.mem_filter, decide_eq_true_iff]
    exact ⟨hid, hdist⟩

theorem mem_queryRect (sh : SpatialHash) (x y width height : ℚ) (id : Nat) :
    id ∈ QueryRect sh x y width height ↔
      ∃ yy xx : Int,
        Rat.floor ((y - height / 2) / sh.cellSize) ≤ yy ∧
        yy ≤ Rat.floor ((y + height / 2) / sh.cellSize) ∧
        Rat.floor ((x - width / 2) / sh.cellSize) ≤ xx ∧
        xx ≤ Rat.floor ((x + width / 2) / sh.cellSize) ∧
        ∃ b, assocLoad sh.buckets (pairPoint xx yy) = some b ∧ id ∈ b := by
  unfold QueryRect
  rw [List.mem_flatMap]
  constructor
  · rintro ⟨yy, hyy, hin⟩
    rw [List.mem_flatMap] at hin
    obtain ⟨xx, hxx, hin2⟩ := hin
    rw [mem_intRange] at hyy hxx
    cases hb : assocLoad sh.buckets (pairPoint xx yy) with
    | none =>
      rw [hb] at hin2
      simp at hin2
    | some b =>
      rw [hb] at hin2
      exact ⟨yy, xx, hyy.1, hyy.2, hxx.1, hxx.2, b, hb, hin2⟩
  · rintro ⟨yy, xx, h1, h2, h3, h4, b, hb, hid⟩
    refine ⟨yy, (mem_intRange _ _ _).mpr ⟨h1, h2⟩, ?_⟩
    rw [List.mem_flatMap]
    refine ⟨xx, (mem_intRange _ _ _).mpr ⟨h3, h4⟩, ?_⟩
    rw [hb]
    exact hid

/-- C1: on a state whose nodes are all indexed at their current positions,
`Search` returns exactly the ids of indexed nodes whose squared Euclidean
distance to the center is at most the squared radius: no false positives (the
exact geometric filter) and no misses (a node within the disc lies in a cell
of the scanned bounding box), for every radius at least 0 including 0. -/
theorem search_exact_disc (sh : SpatialHash) (pos : Nat → ℚ × ℚ) (ids : List Nat)
    (x y radius : ℚ) (hcs : 0 < sh.cellSize) (hr : 0 ≤ radius)
    (hW : WellIndexed sh pos ids) (id : Nat) :
    id ∈ Search sh pos x y radius ↔
      id ∈ ids ∧
      ((pos id).1 - x) * ((pos id).1 - x) + ((pos id).2 - y) * ((pos id).2 - y)
        ≤ radius * radius := by
  rw [mem_search]
  constructor
  · rintro ⟨yy, xx, h1, h2, h3, h4, ⟨b, hb, hid⟩, hdist⟩
    exact ⟨hW.2 _ _ hb id hid, hdist⟩
  · rintro ⟨hmem, hdist⟩
    have hkey := hW.1 id hmem
    rw [memBucket_true_iff] at hkey
    obtain ⟨b, hb, hid⟩ := hkey
    have hx1 : x - radius ≤ (pos id).1 := by
      nlinarith [hdist, hr, sq_nonneg ((pos id).1 - x + radius), sq_nonneg ((pos id).2 - y)]
    have hx2 : (pos id).1 ≤ x + radius := by
      nlinarith [hdist, hr, sq_nonneg ((pos id).1 - x - radius), sq_nonneg ((pos id).2 - y)]
    have hy1 : y - radius ≤ (pos id).2 := by
      nlinarith [hdist, hr, sq_nonneg ((pos id).2 - y + radius), sq_nonneg ((pos id).1 - x)]
    have hy2 : (pos id).2 ≤ y + radius := by
      nlinarith [hdist, hr, sq_nonneg ((pos id).2 - y - radius), sq_nonneg ((pos id).1 - x)]
    refine ⟨Rat.floor ((pos id).2 / sh.cellSize), Rat.floor ((pos id).1 / sh.cellSize),
      ratFloor_div_mono _ _ _ hcs hy1, ratFloor_div_mono _ _ _ hcs hy2,
      ratFloor_div_mono _ _ _ hcs hx1, ratFloor_div_mono _ _ _ hcs hx2,
      ⟨b, ?_, hid⟩, hdist⟩
    exact hb

theorem wellIndexed_shW6 : WellIndexed shW6 posW [5] := by
  constructor
  · intro id2 hid2
    have h5 : id2 = 5 := by simpa using hid2
    subst h5
    have hkey : calculatePositionKey shW6 (posW 5).1 (posW 5).2 = keyW := by
      norm_num [calculatePositionKey, shW6, keyW, posW, ratFloor_eq]
    rw [hkey]
    simp [memBucket, shW6, assocLoad]
  · intro k b hb id2 hid2
    simp only [shW6, assocLoad] at hb
    split at hb
    · cases hb
      simpa using hid2
    · cases hb

/-- C1 witness: the theorem applied to the one-node well-indexed state `shW6`
at the degenerate radius 0 centered on the node. -/
theorem search_exact_disc_witness :
    5 ∈ Search shW6 posW 0 0 0 ↔
      5 ∈ [5] ∧
      ((posW 5).1 - 0) * ((posW 5).1 - 0) + ((posW 5).2 - 0) * ((posW 5).2 - 0)
        ≤ 0 * 0 :=
  search_exact_disc shW6 posW [5] 0 0 0 (by norm_num [shW6]) le_rfl wellIndexed_shW6 5

/-- C6: `QueryRect` applies no geometric filter, and every indexed node whose
exact position lies in the closed axis-aligned rectangle centered at (x, y)
with the given width and height is returned: the result id-set is a superset
of the id-set of nodes inside the rectangle. -/
theorem queryRect_superset (sh : SpatialHash) (pos : Nat → ℚ × ℚ) (ids : List Nat)
    (x y width height : ℚ) (hcs : 0 < sh.cellSize) (hW : WellIndexed sh pos ids)
    (id : Nat) (hid : id ∈ ids)
    (h1 : x - width / 2 ≤ (pos id).1) (h2 : (pos id).1 ≤ x + width / 2)
    (h3 : y - height / 2 ≤ (pos id).2) (h4 : (pos id).2 ≤ y + height / 2) :
    id ∈ QueryRect sh x y width height := by
  rw [mem_queryRect]
  have hkey := hW.1 id hid
  rw [memBucket_true_iff] at hkey
  obtain ⟨b, hb, hbid⟩ := hkey
  exact ⟨Rat.floor ((pos id).2 / sh.cellSize), Rat.floor ((pos id).1 / sh.cellSize),
    ratFloor_div_mono _ _ _ hcs h3, ratFloor_div_mono _ _ _ hcs h4,
    ratFloor_div_mono _ _ _ hcs h1, ratFloor_div_mono _ _ _ hcs h2, b, hb, hbid⟩

/-- C6 witness: the superset theorem applied to the one-node state `shW6` and
the degenerate rectangle of width and height 0 centered at the origin. -/
theorem queryRect_superset_witness : 5 ∈ QueryRect shW6 0 0 0 0 :=
  queryRect_superset shW6 posW [5] 0 0 0 0 (by norm_num [shW6]) wellIndexed_shW6 5
    (by simp) (by norm_num [posW]) (by norm_num [posW]) (by norm_num [posW])
    (by norm_num [posW])

theorem update_cellSize (sh : SpatialHash) (n : GoNode) :
    (Update sh n).1.cellSize = sh.cellSize := by
  simp only [Update]
  split
  · cases hold : assocLoad sh.buckets (calculatePositionKey sh n.oldX n.oldY) <;> simp [hold]
  · rfl

theorem applyRemoves_buckets_nil (ns : List GoNode) :
    ∀ sh : SpatialHash, sh.buckets = [] → (applyRemoves sh ns).buckets = [] := by
  induction ns with
  | nil => intro sh h; exact h
  | cons n rest ih =>
    intro sh h
    unfold applyRemoves
    apply ih
    have hl : assocLoad sh.buckets (calculatePositionKey sh n.x n.y) = none := by
      rw [h]
      rfl
    rw [remove_state_none sh n hl]
    exact h

theorem flatMap_nil_fun {α β : Type} (l : List α) :
    (l.flatMap fun _ => ([] : List β)) = [] := by
  induction l with
  | nil => rfl
  | cons a l2 ih => simp [List.flatMap_cons, ih]

theorem search_buckets_nil (sh : SpatialHash) (pos : Nat → ℚ × ℚ) (x y radius : ℚ)
    (h : sh.buckets = []) : Search sh pos x y radius = [] := by
  unfold Search
  rw [h]
  simp [assocLoad, flatMap_nil_fun]

theorem queryRect_buckets_nil (sh : SpatialHash) (x y width height : ℚ)
    (h : sh.buckets = []) : QueryRect sh x y width height = [] := by
  unfold QueryRect
  rw [h]
  simp [assocLoad, flatMap_nil_fun]

/-- C8 as amended: immediately after `Reset`, and still after any sequence of
`Remove` calls (queries do not mutate), every `Search` and every `QueryRect`
at any location returns the empty sequence; repopulation requires a `Put` or
a cell-migrating `Update` call. -/
theorem reset_queries_empty (sh : SpatialHash) (ns : List GoNode) (pos : Nat → ℚ × ℚ)
    (x y radius width height : ℚ) :
    Search (applyRemoves (Reset sh) ns) pos x y radius = [] ∧
    QueryRect (applyRemoves (Reset sh) ns) x y width height = [] := by
  have hb : (applyRemoves (Reset sh) ns).buckets = [] :=
    applyRemoves_buckets_nil ns (Reset sh) rfl
  exact ⟨search_buckets_nil _ _ _ _ _ hb, queryRect_buckets_nil _ _ _ _ _ hb⟩

/-- C8 counterexample: an `Update` call (no `Put`) after `Reset` repopulates
the index — the updated node migrates from the cell of its stale cached
position into the bucket for its current cell, and a subsequent `Search` at
that position is nonempty.  So queries are not empty until a new `Put`
occurs: a cell-migrating `Update` also repopulates. -/
theorem reset_then_update_search_cex :
    Search (Update (Reset shC8) nC8).1 posC8 0 0 0 ≠ [] := by
  have hk0 : calculatePositionKey (Reset shC8) nC8.x nC8.y = pairPoint 0 0 := by
    norm_num [calculatePositionKey, Reset, shC8, nC8, ratFloor_eq]
  have hk3 : calculatePositionKey (Reset shC8) nC8.oldX nC8.oldY = pairPoint 3 3 := by
    norm_num [calculatePositionKey, Reset, shC8, nC8, ratFloor_eq]
  have hkne : calculatePositionKey (Reset shC8) nC8.oldX nC8.oldY
      ≠ calculatePositionKey (Reset shC8) nC8.x nC8.y := by
    rw [hk0, hk3]
    decide
  have hload := update_load_new (Reset shC8) nC8 hkne
  rw [hk0] at hload
  have hload2 : assocLoad (Update (Reset shC8) nC8).1.buckets (pairPoint 0 0) = some [1] := by
    simpa [Reset, shC8, assocLoad, bucketAdd, nC8] using hload
  have h1 : 1 ∈ Search (Update (Reset shC8) nC8).1 posC8 0 0 0 := by
    rw [mem_search]
    refine ⟨0, 0, ?_, ?_, ?_, ?_, ⟨[1], hload2, by simp⟩, ?_⟩
    · rw [update_cellSize]
      norm_num [Reset, shC8, ratFloor_eq]
    · rw [update_cellSize]
      norm_num [Reset, shC8, ratFloor_eq]
    · rw [update_cellSize]
      norm_num [Reset, shC8, ratFloor_eq]
    · rw [update_cellSize]
      norm_num [Reset, shC8, ratFloor_eq]
    · norm_num [posC8]
  intro hempty
  rw [hempty] at h1
  simp at h1
